import Mathlib

/-!
# Verification of the bitcask storage engine (zhoujie0101/bitcask)

Shallow embedding of the Go sources:
* `internal/data/codec/{encoder,decoder}.go` — record codec,
* `internal/entry.go` — log entries,
* `internal/utils.go` — segment-file id parsing,
* `internal/config/config.go` — configuration,
* the `data` package (`datafile`) — segment files,
* the top-level `bitcask` package — the engine (`Open`/`reopen`,
  `Put`/`Get`/`Has`/`Delete`/`DeleteAll`, `loadDatafiles`, `loadIndex`).

Bytes are `Fin 256`; machine integers are `Nat`/`Int` with explicit
`% 2^32` where Go's `uint32` conversions truncate.  I/O failure of an
encoder write is modelled by an oracle `List Bool` carried in the engine
state (head `true` = the next encode fails); all other file operations
of the model are deterministic.  `hash/crc32.ChecksumIEEE` is an external
library function; it is a parameter `crc : Bytes → Nat` of the operations
that use it (a Go `uint32`-valued function, i.e. `∀ v, crc v < 2^32`).
-/

namespace Bitcaskv

abbrev Byte := Fin 256
abbrev Bytes := List Byte

/-- Big-endian encoding of `n` on `w` bytes (`binary.BigEndian.PutUint32/64`
truncates to the word width, i.e. records `n % 256^w`). -/
def toBE : Nat → Nat → Bytes
  | 0, _ => []
  | w + 1, n => toBE w (n / 256) ++ [⟨n % 256, Nat.mod_lt _ (by omega)⟩]

/-- Big-endian read of a byte string (`binary.BigEndian.Uint32/64`). -/
def fromBE (b : Bytes) : Nat :=
  b.foldl (fun acc x => acc * 256 + x.val) 0

/-- Errors distinguished by the model.  `panic` stands for a Go runtime
panic (out-of-range slicing / nil dereference), which is not a returned
error value. -/
inductive Err where
  | keyNotFound
  | keyTooLarge
  | valueTooLarge
  | checksumFailed
  | readOnly
  | readError
  | eof
  | unexpectedEOF
  | invalidKeyOrValueSize
  | truncatedData
  | ioError
  | fileNotFound
  | panic
  deriving DecidableEq, Repr

/-- `internal.Entry`: key, value, write offset and CRC-32 of the value. -/
structure Entry where
  checksum : Nat
  key : Bytes
  offset : Nat
  value : Bytes
  deriving DecidableEq, Repr

/-- `internal.NewEntry`: checksum is `crc32.ChecksumIEEE(value)`. -/
def NewEntry (crc : Bytes → Nat) (key value : Bytes) : Entry :=
  { checksum := crc value, key := key, offset := 0, value := value }

/-- The zero value of `internal.Entry` (Go's `var e internal.Entry`). -/
def zeroEntry : Entry := { checksum := 0, key := [], offset := 0, value := [] }

/-! ## Record codec (`internal/data/codec`)

Wire layout: `key_len (4) | value_len (8) | key | value | crc32(value) (4)`,
big-endian.  `Encoder.Encode` writes the fields in order and returns the
total length; the Go length prefixes are `uint32(len(key))` and
`uint64(len(value))`, hence the `% 2^w` in `toBE`. -/

/-- `Encoder.Encode`: the byte string appended for one entry. -/
def encode (e : Entry) : Bytes :=
  toBE 4 e.key.length ++ toBE 8 e.value.length ++ e.key ++ e.value ++
    toBE 4 e.checksum

/-- `Encoder.Encode`'s returned length (`keySize+valueSize+len(key)+len(value)+checksumSize`). -/
def encodedLen (e : Entry) : Nat :=
  4 + 8 + e.key.length + e.value.length + 4

/-- `codec.getKeyValueSizes`: reads the two big-endian prefixes and
rejects `key_len == 0`, `key_len > maxKeySize`, `value_len > maxValueSize`.
Reading the prefixes of a buffer shorter than 12 bytes panics in Go. -/
def getKeyValueSizes (b : Bytes) (maxKeySize maxValueSize : Nat) :
    Except Err (Nat × Nat) :=
  if b.length < 12 then .error .panic
  else
    let ks := fromBE (b.take 4)
    let vs := fromBE ((b.drop 4).take 8)
    if ks > maxKeySize ∨ vs > maxValueSize ∨ ks = 0 then
      .error .invalidKeyOrValueSize
    else .ok (ks, vs)

/-- `codec.decodeWithoutPrefix`: `e.Key = b[:ks]`, `e.Value = b[ks:len-4]`,
`e.Checksum = BE32(b[len-4:])`; out-of-range slicing panics. -/
def decodeWithoutPrefix (b : Bytes) (ks : Nat) : Except Err Entry :=
  if 4 ≤ b.length ∧ ks ≤ b.length - 4 then
    .ok { checksum := fromBE (b.drop (b.length - 4)),
          key := b.take ks,
          offset := 0,
          value := (b.take (b.length - 4)).drop ks }
  else .error .panic

/-- `codec.DecodeEntry`: parse one record from a buffer.  Size-check
failures are returned as an error (the caller `datafile.ReadAt` discards
it); slicing failures panic. -/
def DecodeEntry (b : Bytes) (maxKeySize maxValueSize : Nat) :
    Except Err Entry :=
  match getKeyValueSizes b maxKeySize maxValueSize with
  | .error err => .error err
  | .ok (ks, _) => decodeWithoutPrefix (b.drop 12) ks

/-- `Decoder.Decode`: sequential decode of the record starting at stream
position `pos` of `content`.  `io.ReadFull` yields `io.EOF` only when no
byte is available, `io.ErrUnexpectedEOF` on a partial 12-byte prefix; a
short body read is reported as `errTruncatedData`.  Returns the entry and
the consumed length. -/
def decoderDecode (content : Bytes) (pos : Nat)
    (maxKeySize maxValueSize : Nat) : Except Err (Entry × Nat) :=
  if content.length ≤ pos then .error .eof
  else if content.length < pos + 12 then .error .unexpectedEOF
  else
    match getKeyValueSizes ((content.drop pos).take 12)
        maxKeySize maxValueSize with
    | .error err => .error err
    | .ok (ks, vs) =>
      if content.length < pos + 12 + (ks + vs + 4) then .error .truncatedData
      else
        match decodeWithoutPrefix
            ((content.drop (pos + 12)).take (ks + vs + 4)) ks with
        | .error err => .error err
        | .ok e => .ok (e, 12 + (ks + vs + 4))

/-! ## Segment files (`data.datafile`)

A datafile's on-disk bytes are `content`; `offset` is the logical size
maintained by the struct (set from `stat` at open, advanced on writes);
`readPos` is the sequential decoder's stream position.  A frozen file
(`w == nil`, `readonly = true`) serves `ReadAt` from an mmap snapshot —
in the model its own `content` copy, taken at open time. -/

/-- The single observable side effect the claims need: `fsync` of the
write handle of the segment with the given id. -/
inductive Eff where
  | fsync (id : Nat)
  deriving DecidableEq, Repr

structure DataFile where
  id : Nat
  readonly : Bool
  content : Bytes
  offset : Nat
  readPos : Nat
  maxKeySize : Nat
  maxValueSize : Nat
  deriving DecidableEq, Repr

/-- `data.NewDatafile` on a file whose current bytes are `content`
(the writable variant `O_CREATE`s an empty file when absent; the
read-only variant is only called on an existing file — `loadDatafiles`
handles absence, see below).  `offset` is the stat'ed size. -/
def mkDatafile (id : Nat) (readonly : Bool) (content : Bytes)
    (maxKeySize maxValueSize : Nat) : DataFile :=
  { id := id, readonly := readonly, content := content,
    offset := content.length, readPos := 0,
    maxKeySize := maxKeySize, maxValueSize := maxValueSize }

/-- `datafile.Size`. -/
def DataFile.Size (d : DataFile) : Nat := d.offset

/-- `datafile.Write`: fails with `errReadOnly` when `w == nil`; otherwise
encodes (the oracle's head decides whether the underlying I/O fails; on
failure the logical offset does not advance) and returns
`(offset_before, encoded_length)`. -/
def DataFile.Write (d : DataFile) (e : Entry) (io : List Bool) :
    DataFile × List Bool × Except Err (Nat × Nat) :=
  if d.readonly then (d, io, .error .readOnly)
  else if io.headD false then (d, io.tail, .error .ioError)
  else
    let bs := encode e
    ({ d with content := d.content ++ bs, offset := d.offset + bs.length },
      io.tail, .ok (d.offset, bs.length))

/-- `datafile.Read`: sequential decode at the internal cursor, advancing
it on success. -/
def DataFile.Read (d : DataFile) : Except Err (Entry × Nat) × DataFile :=
  match decoderDecode d.content d.readPos d.maxKeySize d.maxValueSize with
  | .ok (e, n) => (.ok (e, n), { d with readPos := d.readPos + n })
  | .error err => (.error err, d)

/-- `datafile.ReadAt`: positioned read of `size` bytes at `offset`.
A short read surfaces the underlying error; the result of
`codec.DecodeEntry` is DISCARDED, so an invalid record yields the
zero-valued entry with a nil error (a Go panic still crashes). -/
def DataFile.ReadAt (d : DataFile) (offset size : Nat) : Except Err Entry :=
  if d.content.length < offset + size then .error .readError
  else
    match DecodeEntry ((d.content.drop offset).take size)
        d.maxKeySize d.maxValueSize with
    | .ok e => .ok e
    | .error .panic => .error .panic
    | .error _ => .ok zeroEntry

/-- `datafile.Sync`: fsync of the write handle; `errReadOnly` if frozen. -/
def DataFile.doSync (d : DataFile) : Except Err Unit × List Eff :=
  if d.readonly then (.error .readOnly, []) else (.ok (), [.fsync d.id])

/-- `datafile.Close`: read handles are always released; a writable file
is synced before its writer is closed. -/
def DataFile.doClose (d : DataFile) : Except Err Unit × List Eff :=
  if d.readonly then (.ok (), []) else (.ok (), [.fsync d.id])

/-! ## Key directory (`art.Tree`)

The adaptive radix tree is modelled as an association list with unique
keys; `ForEach` visits entries in the list order, which is deterministic
across a non-mutating interval (ART's order is key-ordered; no claim
depends on which deterministic order is used). -/

/-- `internal.Item`. -/
structure Item where
  fileID : Nat
  offset : Nat
  size : Nat
  deriving DecidableEq, Repr

abbrev Tree := List (Bytes × Item)

/-- `art.Tree.Search`. -/
def Tree.search (t : Tree) (k : Bytes) : Option Item :=
  (t.find? (fun p => p.1 = k)).map (·.2)

/-- `art.Tree.Insert` (overwriting). -/
def Tree.insert (t : Tree) (k : Bytes) (it : Item) : Tree :=
  if (t.find? (fun p => p.1 = k)).isSome then
    t.map (fun p => if p.1 = k then (k, it) else p)
  else t ++ [(k, it)]

/-- `art.Tree.Delete` (no-op when absent). -/
def Tree.del (t : Tree) (k : Bytes) : Tree :=
  t.filter (fun p => p.1 ≠ k)

/-! ## Configuration (`internal/config`) -/

/-- `config.Config`: `MaxDatafileSize int`, `MaxKeySize uint32`,
`MaxValueSize uint64`, `Sync bool`.  The `uint32`/`uint64` bounds
(`maxKeySize < 2^32`, `maxValueSize < 2^64`) are stated as hypotheses
where a proof needs them. -/
structure Config where
  maxDatafileSize : Int
  maxKeySize : Nat
  maxValueSize : Nat
  sync : Bool
  deriving DecidableEq, Repr

/-! ## Engine state and write path (`bitcask.go`) -/

/-- Engine state: active segment `curr`, frozen map `datafiles`
(association list id → datafile), directory `t`, and the I/O oracle. -/
structure Bitcask where
  cfg : Config
  curr : DataFile
  datafiles : List (Nat × DataFile)
  t : Tree
  io : List Bool
  deriving DecidableEq, Repr

/-- Overwriting insert into the frozen-segment map. -/
def mapInsert (m : List (Nat × DataFile)) (k : Nat) (v : DataFile) :
    List (Nat × DataFile) :=
  if (m.find? (fun p => p.1 = k)).isSome then
    m.map (fun p => if p.1 = k then (k, v) else p)
  else m ++ [(k, v)]

def mapLookup (m : List (Nat × DataFile)) (k : Nat) : Option DataFile :=
  (m.find? (fun p => p.1 = k)).map (·.2)

/-- `Bitcask.put` (the unexported write path): if the active segment's
size strictly exceeds `MaxDatafileSize`, roll over — close the active
writer (its error is ignored), reopen the same id read-only into
`datafiles`, create id+1 as the new active — then encode the entry and
append it to the (possibly new) active segment. -/
def Bitcask.put (crc : Bytes → Nat) (b : Bitcask) (key value : Bytes) :
    Bitcask × Except Err (Nat × Nat) × List Eff :=
  let size := b.curr.Size
  if (size : Int) > b.cfg.maxDatafileSize then
    let (_, closeEffs) := b.curr.doClose
    let id := b.curr.id
    let frozen := mkDatafile id true b.curr.content
        b.cfg.maxKeySize b.cfg.maxValueSize
    let newCurr := mkDatafile (id + 1) false []
        b.cfg.maxKeySize b.cfg.maxValueSize
    let b' := { b with datafiles := mapInsert b.datafiles id frozen,
                       curr := newCurr }
    let e := NewEntry crc key value
    let (d', io', r) := b'.curr.Write e b'.io
    ({ b' with curr := d', io := io' }, r, closeEffs)
  else
    let e := NewEntry crc key value
    let (d', io', r) := b.curr.Write e b.io
    ({ b with curr := d', io := io' }, r, [])

/-- `Bitcask.Put`: admission checks (`uint32(len(key)) > MaxKeySize`,
`uint64(len(value)) > MaxValueSize`; there is no empty-key check), then
the write path, then the directory insert with the CURRENT active file's
id and the returned `(offset, size)`. -/
def Bitcask.Put (crc : Bytes → Nat) (b : Bitcask) (key value : Bytes) :
    Bitcask × Except Err Unit × List Eff :=
  if key.length % 2 ^ 32 > b.cfg.maxKeySize then (b, .error .keyTooLarge, [])
  else if value.length > b.cfg.maxValueSize then
    (b, .error .valueTooLarge, [])
  else
    match b.put crc key value with
    | (b', .error e, effs) => (b', .error e, effs)
    | (b', .ok (offset, n), effs) =>
      let item : Item := { fileID := b'.curr.id, offset := offset, size := n }
      ({ b' with t := Tree.insert b'.t key item }, .ok (), effs)

/-- `Bitcask.Get`: directory lookup, positioned read against the active
segment when the ids match (else the frozen map; a missing id is a nil
dereference), then checksum verification. -/
def Bitcask.Get (crc : Bytes → Nat) (b : Bitcask) (key : Bytes) :
    Except Err Bytes :=
  match Tree.search b.t key with
  | none => .error .keyNotFound
  | some item =>
    let df? : Option DataFile :=
      if item.fileID = b.curr.id then some b.curr
      else mapLookup b.datafiles item.fileID
    match df? with
    | none => .error .panic
    | some df =>
      match df.ReadAt item.offset item.size with
      | .error e => .error e
      | .ok e =>
        if crc e.value ≠ e.checksum then .error .checksumFailed
        else .ok e.value

/-- `Bitcask.Has`: directory lookup only. -/
def Bitcask.Has (b : Bitcask) (key : Bytes) : Bool :=
  (Tree.search b.t key).isSome

/-- `Bitcask.Delete`: writes a tombstone (empty value) through the write
path — with NO admission check on the key — and on success removes the
directory entry. -/
def Bitcask.Delete (crc : Bytes → Nat) (b : Bitcask) (key : Bytes) :
    Bitcask × Except Err Unit × List Eff :=
  match b.put crc key [] with
  | (b', .error e, effs) => (b', .error e, effs)
  | (b', .ok _, effs) => ({ b' with t := Tree.del b'.t key }, .ok (), effs)

/-- The `ForEach` body of `Bitcask.DeleteAll`: write one tombstone per
visited key, stopping at the first failure. -/
def deleteAllLoop (crc : Bytes → Nat) (b : Bitcask) :
    List Bytes → Bitcask × Except Err Unit × List Eff
  | [] => (b, .ok (), [])
  | k :: ks =>
    match b.put crc k [] with
    | (b', .error e, effs) => (b', .error e, effs)
    | (b', .ok _, effs) =>
      let (b'', r, effs') := deleteAllLoop crc b' ks
      (b'', r, effs ++ effs')

/-- `Bitcask.DeleteAll`: traverse the directory writing tombstones;
the traversal stops at the first failed write, but `b.t = art.New()`
runs UNCONDITIONALLY afterwards, so the directory is emptied even when
an error is returned. -/
def Bitcask.DeleteAll (crc : Bytes → Nat) (b : Bitcask) :
    Bitcask × Except Err Unit × List Eff :=
  let (b', r, effs) := deleteAllLoop crc b (b.t.map (·.1))
  ({ b' with t := [] }, r, effs)

/-- `Bitcask.Len`. -/
def Bitcask.Len (b : Bitcask) : Nat := b.t.length

/-- `Bitcask.Sync`: fsync of the active segment. -/
def Bitcask.doSync (b : Bitcask) : Except Err Unit × List Eff :=
  b.curr.doSync

/-! ## Recovery (`internal.ParseIds`, `loadDatafiles`, `loadIndex`,
`Bitcask.reopen`)

The directory on disk is a finite map from segment id to file bytes;
segment filenames are `%09d.data`, so `internal.GetDatafiles`' string
sort and the numeric parse are modelled by working on the ids directly. -/

abbrev Files := List (Nat × Bytes)

def filesLookup (fs : Files) (id : Nat) : Option Bytes :=
  (fs.find? (fun p => p.1 = id)).map (·.2)

/-- The ids of the discovered `*.data` files, in `GetDatafiles`' sorted
order. -/
def sortedIds (fs : Files) : List Nat :=
  (fs.map (·.1)).insertionSort (· ≤ ·)

/-- `internal.ParseIds`: `ids := make([]int, len(fns))` pre-allocates
`len(fns)` ZEROS, the parsed ids are then APPENDED, and the whole slice
is sorted — so the result has length `2n` and starts with `n` zeros. -/
def ParseIds (fns : List Nat) : List Nat :=
  (List.replicate fns.length 0 ++ fns).insertionSort (· ≤ ·)

/-- The `for` body of `loadDatafiles`: open every id of `ids` read-only
(`os.Open` fails when the file is absent), inserting into the map. -/
def openFrozen (fs : Files) (maxKeySize maxValueSize : Nat) :
    List Nat → List (Nat × DataFile) → Except Err (List (Nat × DataFile))
  | [], m => .ok m
  | id :: rest, m =>
    match filesLookup fs id with
    | none => .error .fileNotFound
    | some c =>
      openFrozen fs maxKeySize maxValueSize rest
        (mapInsert m id (mkDatafile id true c maxKeySize maxValueSize))

/-- `loadDatafiles`: discover, parse ids (with the `ParseIds` zero
padding), open each as frozen, and report the LAST id of the sorted
slice (0 when no file exists). -/
def loadDatafiles (fs : Files) (maxKeySize maxValueSize : Nat) :
    Except Err (List (Nat × DataFile) × Nat) :=
  match openFrozen fs maxKeySize maxValueSize
      (ParseIds (sortedIds fs)) [] with
  | .error err => .error err
  | .ok m =>
    .ok (m, if (ParseIds (sortedIds fs)).length > 0
        then (ParseIds (sortedIds fs)).getLastD 0 else 0)

/-- `getSortedDatafiles`: the frozen map's files sorted by id. -/
def getSortedDatafiles (m : List (Nat × DataFile)) : List DataFile :=
  (m.insertionSort (fun a b => a.1 ≤ b.1)).map (·.2)

/-- The replay loop of `loadIndex` as written in the source: ONE
`f.Read()` per datafile (there is no inner loop over a file's records),
a SINGLE `offset` accumulated across all files, and `break` on `io.EOF`
abandons ALL remaining files; any other read error is fatal.  Tombstones
delete the key, other records insert `{f.FileID(), offset, n}`. -/
def loadIndexScan (t : Tree) (offset : Nat) :
    List DataFile → Except Err Tree
  | [] => .ok t
  | f :: rest =>
    match (f.Read).1 with
    | .error .eof => .ok t
    | .error e => .error e
    | .ok (e, n) =>
      if e.value = [] then
        loadIndexScan (Tree.del t e.key) (offset + n) rest
      else
        loadIndexScan
          (Tree.insert t e.key
            { fileID := f.id, offset := offset, size := n })
          (offset + n) rest

/-- `loadIndex`: use the snapshot when the `index` file is present
(its parsing, `indexer.Load`/`readIndex`, is abstracted to the parsed
tree — every claim here exercises the snapshot-absent branch), else
synthesize the directory with the scan above. -/
def loadIndex (snapshot : Option Tree)
    (datafiles : List (Nat × DataFile)) : Except Err Tree :=
  match snapshot with
  | some t => .ok t
  | none => loadIndexScan [] 0 (getSortedDatafiles datafiles)

/-- `Bitcask.reopen` (the body of `Open` after configuration handling):
load the frozen files, load or synthesize the directory, then open
`lastID` WRITABLE as the new active segment — without removing that id
from the frozen map. -/
def reopen (fs : Files) (snapshot : Option Tree) (cfg : Config)
    (ioOracle : List Bool) : Except Err Bitcask :=
  match loadDatafiles fs cfg.maxKeySize cfg.maxValueSize with
  | .error err => .error err
  | .ok (datafiles, lastID) =>
    match loadIndex snapshot datafiles with
    | .error err => .error err
    | .ok t =>
      .ok { cfg := cfg
            curr := mkDatafile lastID false
              ((filesLookup fs lastID).getD [])
              cfg.maxKeySize cfg.maxValueSize
            datafiles := datafiles, t := t, io := ioOracle }

/-- `Open` on an empty directory: no segment files, no snapshot. -/
def openFresh (cfg : Config) (ioOracle : List Bool) : Bitcask :=
  { cfg := cfg,
    curr := mkDatafile 0 false [] cfg.maxKeySize cfg.maxValueSize,
    datafiles := [], t := [], io := ioOracle }

/-- The segment files on disk for an engine state: the frozen files'
bytes and the active file's bytes (the active file wins when — after a
reopen — its id is also present in the frozen map, since both handles
name the same on-disk file and writes go through the active one). -/
def Bitcask.files (b : Bitcask) : Files :=
  (b.datafiles.filter (fun p => p.1 ≠ b.curr.id)).map
      (fun p => (p.1, p.2.content))
    ++ [(b.curr.id, b.curr.content)]

/-! ## Concrete instances used by witnesses and counterexamples -/

/-- A concrete stand-in for the CRC-32 parameter (any `uint32`-valued
function; the claims never depend on which). -/
def crcZ : Bytes → Nat := fun _ => 0

/-- A configuration with roomy limits. -/
def cfgW : Config :=
  { maxDatafileSize := 1000, maxKeySize := 64, maxValueSize := 64,
    sync := false }

/-- The same limits with `sync` enabled. -/
def cfgWS : Config :=
  { maxDatafileSize := 1000, maxKeySize := 64, maxValueSize := 64,
    sync := true }

/-- Limits that force a rollover after one 18-byte record. -/
def cfgR : Config :=
  { maxDatafileSize := 10, maxKeySize := 64, maxValueSize := 64,
    sync := false }

/-- Engine after `put("a","A"); put("b","B")` from a fresh open. -/
def twoPutState : Bitcask :=
  (Bitcask.Put crcZ (Bitcask.Put crcZ (openFresh cfgW []) [97] [65]).1
    [98] [66]).1

/-- Engine after the same two puts, but whose next encode will fail. -/
def twoPutFailNext : Bitcask :=
  (Bitcask.Put crcZ
    (Bitcask.Put crcZ (openFresh cfgW [false, false, true]) [97] [65]).1
    [98] [66]).1

/-! ## Directory (tree) and map lemmas -/

theorem find?_overwrite {α : Type} [DecidableEq α] {β : Type}
    (m : List (α × β)) (k : α) (v : β)
    (hf : (m.find? (fun p => p.1 = k)).isSome) :
    ((m.map (fun p => if p.1 = k then (k, v) else p)).find?
      (fun p => p.1 = k)) = some (k, v) := by
  rw [List.find?_map]
  have hcomp : ((fun p : α × β => decide (p.1 = k)) ∘
      (fun p => if p.1 = k then (k, v) else p)) =
      (fun p : α × β => decide (p.1 = k)) := by
    funext p
    by_cases hp : p.1 = k <;> simp [hp]
  rw [hcomp]
  rcases Option.isSome_iff_exists.mp hf with ⟨p₀, hp₀⟩
  have hk : p₀.1 = k := by simpa using List.find?_some hp₀
  rw [hp₀]
  simp [hk]

theorem Tree.search_insert (t : Tree) (k : Bytes) (it : Item) :
    Tree.search (Tree.insert t k it) k = some it := by
  unfold Tree.search Tree.insert
  by_cases h : (t.find? (fun p => p.1 = k)).isSome
  · rw [if_pos h, find?_overwrite t k it h]
    rfl
  · rw [if_neg h, List.find?_append,
      Option.not_isSome_iff_eq_none.mp h]
    simp

theorem Tree.search_del (t : Tree) (k : Bytes) :
    Tree.search (Tree.del t k) k = none := by
  unfold Tree.search Tree.del
  have : (List.filter (fun p => decide (p.1 ≠ k)) t).find?
      (fun p => p.1 = k) = none := by
    refine List.find?_eq_none.mpr (fun x hx => ?_)
    have := (List.mem_filter.mp hx).2
    simpa using this
  rw [this]
  rfl

theorem mapLookup_mapInsert (m : List (Nat × DataFile)) (k : Nat)
    (v : DataFile) : mapLookup (mapInsert m k v) k = some v := by
  unfold mapLookup mapInsert
  by_cases h : (m.find? (fun p => p.1 = k)).isSome
  · rw [if_pos h, find?_overwrite m k v h]
    rfl
  · rw [if_neg h, List.find?_append,
      Option.not_isSome_iff_eq_none.mp h]
    simp

/-- Every id present after an overwriting insert is the inserted id or
one already present. -/
theorem mem_ids_mapInsert {m : List (Nat × DataFile)} {k q : Nat}
    {v : DataFile} (h : q ∈ (mapInsert m k v).map (·.1)) :
    q = k ∨ q ∈ m.map (·.1) := by
  unfold mapInsert at h
  split at h
  · rw [List.map_map] at h
    rcases List.mem_map.mp h with ⟨p, hp, hpq⟩
    by_cases hpk : p.1 = k
    · left
      simpa [hpk] using hpq.symm
    · right
      refine List.mem_map.mpr ⟨p, hp, ?_⟩
      simpa [hpk] using hpq
  · rw [List.map_append] at h
    rcases List.mem_append.mp h with h | h
    · right; exact h
    · left; simpa using h

/-! ## Codec round-trip lemmas -/

theorem toBE_length (w n : Nat) : (toBE w n).length = w := by
  induction w generalizing n with
  | zero => rfl
  | succ w ih => simp [toBE, ih]

theorem fromBE_toBE (w n : Nat) : fromBE (toBE w n) = n % 256 ^ w := by
  induction w generalizing n with
  | zero => simp [toBE, fromBE, Nat.mod_one]
  | succ w ih =>
    have hstep : fromBE (toBE (w + 1) n) =
        fromBE (toBE w (n / 256)) * 256 + n % 256 := by
      simp [toBE, fromBE, List.foldl_append]
    rw [hstep, ih]
    have hmul : (256 : Nat) ^ (w + 1) = 256 * 256 ^ w := by
      rw [pow_succ]
      ring
    rw [hmul, Nat.mod_mul]
    ring

theorem encode_length (e : Entry) : (encode e).length = encodedLen e := by
  simp [encode, encodedLen, toBE_length]
  omega

/-- Structural decomposition of an encoded record behind the 12-byte
prefix. -/
theorem encode_drop12 (e : Entry) :
    (encode e).drop 12 = e.key ++ (e.value ++ toBE 4 e.checksum) := by
  have hsplit : encode e =
      (toBE 4 e.key.length ++ toBE 8 e.value.length) ++
        (e.key ++ (e.value ++ toBE 4 e.checksum)) := by
    simp [encode, List.append_assoc]
  have hlen : (toBE 4 e.key.length ++ toBE 8 e.value.length).length = 12 := by
    simp [toBE_length]
  rw [hsplit, ← hlen, List.drop_left]

theorem encode_take4 (e : Entry) :
    (encode e).take 4 = toBE 4 e.key.length := by
  unfold encode
  simp only [List.append_assoc]
  rw [List.take_left' (toBE_length 4 e.key.length)]

theorem encode_drop4_take8 (e : Entry) :
    ((encode e).drop 4).take 8 = toBE 8 e.value.length := by
  unfold encode
  simp only [List.append_assoc]
  rw [List.drop_left' (toBE_length 4 e.key.length),
    List.take_left' (toBE_length 8 e.value.length)]

/-- Decoding a buffer holding exactly one encoded record recovers the
entry (`DecodeEntry ∘ encode`), for in-bound sizes.  The stored checksum
comes back reduced modulo `2^32` (the width of the wire field). -/
theorem DecodeEntry_encode (e : Entry) (maxK maxV : Nat)
    (hk0 : e.key.length ≠ 0) (hk : e.key.length ≤ maxK)
    (hk32 : e.key.length < 2 ^ 32)
    (hv : e.value.length ≤ maxV) (hv64 : e.value.length < 2 ^ 64) :
    DecodeEntry (encode e) maxK maxV =
      .ok { checksum := e.checksum % 2 ^ 32, key := e.key, offset := 0,
            value := e.value } := by
  have hlen : (encode e).length = 16 + e.key.length + e.value.length := by
    rw [encode_length]
    unfold encodedLen
    omega
  have hks : fromBE ((encode e).take 4) = e.key.length := by
    rw [encode_take4, fromBE_toBE]
    have h32 : (256 : Nat) ^ 4 = 2 ^ 32 := by norm_num
    rw [h32]
    exact Nat.mod_eq_of_lt hk32
  have hvs : fromBE (((encode e).drop 4).take 8) = e.value.length := by
    rw [encode_drop4_take8, fromBE_toBE]
    have h64 : (256 : Nat) ^ 8 = 2 ^ 64 := by norm_num
    rw [h64]
    exact Nat.mod_eq_of_lt hv64
  have hget : getKeyValueSizes (encode e) maxK maxV =
      .ok (e.key.length, e.value.length) := by
    unfold getKeyValueSizes
    rw [if_neg (by omega)]
    simp only [hks, hvs]
    rw [if_neg (by push_neg; exact ⟨by omega, by omega, hk0⟩)]
  have hbody : (encode e).drop 12 =
      e.key ++ (e.value ++ toBE 4 e.checksum) := encode_drop12 e
  have hbodylen : ((encode e).drop 12).length =
      e.key.length + e.value.length + 4 := by
    rw [hbody]
    simp only [List.length_append, toBE_length]
    omega
  have hdec : decodeWithoutPrefix ((encode e).drop 12) e.key.length =
      .ok { checksum := e.checksum % 2 ^ 32, key := e.key, offset := 0,
            value := e.value } := by
    unfold decodeWithoutPrefix
    rw [if_pos (by constructor <;> omega)]
    have hsub : ((encode e).drop 12).length - 4 =
        e.key.length + e.value.length := by omega
    have hkey : ((encode e).drop 12).take e.key.length = e.key := by
      rw [hbody]
      have := List.take_left e.key (e.value ++ toBE 4 e.checksum)
      exact this
    have htake : ((encode e).drop 12).take
        (e.key.length + e.value.length) = e.key ++ e.value := by
      rw [hbody, List.take_append]
      rw [List.take_left e.value (toBE 4 e.checksum)]
    have hvalue : (((encode e).drop 12).take
        (e.key.length + e.value.length)).drop e.key.length = e.value := by
      rw [htake]
      exact List.drop_left e.key e.value
    have hchk : ((encode e).drop 12).drop
        (e.key.length + e.value.length) = toBE 4 e.checksum := by
      rw [hbody, List.drop_append, List.drop_left e.value (toBE 4 e.checksum)]
    rw [hsub]
    simp only [hkey, hvalue, hchk]
    rw [fromBE_toBE]
    have h32 : (256 : Nat) ^ 4 = 2 ^ 32 := by norm_num
    rw [h32]
  unfold DecodeEntry
  rw [hget]
  exact hdec

/-! ## Claim C1 — replay equivalence

The spec demands that deleting the `index` snapshot and reopening
rebuilds, by scanning every record of every frozen segment, a directory
answering `get` identically.  The source's `loadIndex` loop performs ONE
`f.Read()` per datafile — there is no inner loop over the records of a
file — and `break`s out of the whole loop at the first `io.EOF`, so only
the first record of each segment is replayed.  Concretely: after
`put("a","A"); put("b","B")` both keys are readable, but a reopen with
the snapshot absent loses `"b"`. -/

/-- C1: the code violates replay equivalence.  After two puts into one
segment, `get("b") = "B"`; reopening the same segment files without the
`index` snapshot yields an engine whose `get("b")` is key-not-found,
because `loadIndex` replays only the first record of the segment. -/
theorem c1_replay_loses_second_record :
    Bitcask.Get crcZ twoPutState [98] = .ok [66] ∧
    (reopen twoPutState.files none cfgW []).map
      (fun b => Bitcask.Get crcZ b [98]) = .ok (.error .keyNotFound) :=
  ⟨rfl, rfl⟩

/-! ## Claim C3 — admission on put

`Bitcask.Put` checks `uint32(len(key)) > MaxKeySize` and
`uint64(len(value)) > MaxValueSize`, but there is NO `len(key) == 0`
check: the empty key is accepted, a record with `key_len == 0` is
appended, and the directory gains the empty key.  The repository's own
codec (and its decoder tests) treat `key_len == 0` as invalid, so the
log becomes unreplayable: a reopen without the snapshot fails. -/

/-- C3: `put("", v)` returns success, writes a `key_len == 0` record and
indexes the empty key — and a subsequent snapshot-less reopen of the
resulting log fails with invalid-record, contradicting the claimed
empty-key admission error. -/
theorem c3_put_empty_key_accepted :
    (Bitcask.Put crcZ (openFresh cfgW []) [] [118]).2.1 = .ok () ∧
    (Tree.search (Bitcask.Put crcZ (openFresh cfgW []) [] [118]).1.t
      []).isSome = true ∧
    reopen (Bitcask.Put crcZ (openFresh cfgW []) [] [118]).1.files
      none cfgW [] = .error .invalidKeyOrValueSize :=
  ⟨rfl, rfl, rfl⟩

/-! ## Claim C4 — delete_all error atomicity

`Bitcask.DeleteAll` stops the traversal at the first failed tombstone
write, but `b.t = art.New()` runs unconditionally afterwards: the
directory is emptied even when an error is returned, NOT restored to its
pre-call state. -/

/-- C4 counterexample: from a two-key state whose next encode fails, a
failing `DeleteAll` returns the I/O error yet leaves the directory
empty, while the directory before the call was non-empty. -/
theorem c4_deleteAll_empties_on_error :
    (Bitcask.DeleteAll crcZ twoPutFailNext).2.1 = .error .ioError ∧
    (Bitcask.DeleteAll crcZ twoPutFailNext).1.t = [] ∧
    twoPutFailNext.t.length = 2 := ⟨rfl, rfl, rfl⟩

/-- C4 amended: whether the traversal completes or stops at a failed
write, `DeleteAll` always leaves the in-memory directory empty. -/
theorem c4_deleteAll_always_empties (crc : Bytes → Nat) (b : Bitcask) :
    (Bitcask.DeleteAll crc b).1.t = [] := by
  unfold Bitcask.DeleteAll
  rcases h : deleteAllLoop crc b (b.t.map (·.1)) with ⟨b', r, effs⟩
  rfl

/-! ## Characterization of the write path (`Bitcask.put`) -/

/-- The write path without rollover: when the active segment's size does
not exceed the threshold, the record is appended to the unchanged active
segment, the frozen map is untouched and no fsync happens. -/
theorem put_no_rollover (crc : Bytes → Nat) (b : Bitcask) (k v : Bytes)
    (hroll : ¬ ((b.curr.Size : Int) > b.cfg.maxDatafileSize))
    (hro : b.curr.readonly = false)
    (hio : b.io.headD false = false) :
    b.put crc k v =
      ({ b with
          curr := { b.curr with
            content := b.curr.content ++ encode (NewEntry crc k v)
            offset := b.curr.offset + (encode (NewEntry crc k v)).length }
          io := b.io.tail },
        .ok (b.curr.offset, (encode (NewEntry crc k v)).length), []) := by
  simp only [List.headD_eq_head?_getD] at hio
  simp [Bitcask.put, DataFile.Write, hroll, hro, hio]

/-- The write path with rollover: when the active segment's size
strictly exceeds the threshold, the active writer is closed (one fsync),
the same id is reopened frozen into the map, a fresh active segment with
id + 1 is created, and the record is appended to it. -/
theorem put_rollover (crc : Bytes → Nat) (b : Bitcask) (k v : Bytes)
    (hroll : (b.curr.Size : Int) > b.cfg.maxDatafileSize)
    (hro : b.curr.readonly = false)
    (hio : b.io.headD false = false) :
    b.put crc k v =
      ({ b with
          datafiles := mapInsert b.datafiles b.curr.id
            (mkDatafile b.curr.id true b.curr.content
              b.cfg.maxKeySize b.cfg.maxValueSize)
          curr := { id := b.curr.id + 1
                    readonly := false
                    content := encode (NewEntry crc k v)
                    offset := (encode (NewEntry crc k v)).length
                    readPos := 0
                    maxKeySize := b.cfg.maxKeySize
                    maxValueSize := b.cfg.maxValueSize }
          io := b.io.tail },
        .ok (0, (encode (NewEntry crc k v)).length),
        [Eff.fsync b.curr.id]) := by
  simp only [List.headD_eq_head?_getD] at hio
  simp [Bitcask.put, DataFile.Write, DataFile.doClose, mkDatafile,
    hroll, hro, hio]

/-- Every effect of the write path is the rollover fsync of the OLD
active id, and when it occurs the new active id is the successor: hence
no fsync of the segment the record lands in ever happens. -/
theorem put_effs_cases (crc : Bytes → Nat) (b : Bitcask) (k v : Bytes) :
    (b.put crc k v).2.2 = [] ∨
    ((b.put crc k v).2.2 = [Eff.fsync b.curr.id] ∧
      (b.put crc k v).1.curr.id = b.curr.id + 1) := by
  by_cases hroll : ((b.curr.Size : Int) > b.cfg.maxDatafileSize)
  · by_cases hro : b.curr.readonly = true
    · left
      simp [Bitcask.put, DataFile.Write, DataFile.doClose, mkDatafile,
        hroll, hro]
    · right
      by_cases hio : b.io.headD false = true
      all_goals simp only [List.headD_eq_head?_getD] at hio
      · simp [Bitcask.put, DataFile.Write, DataFile.doClose, mkDatafile,
          hroll, hro, hio]
      · simp [Bitcask.put, DataFile.Write, DataFile.doClose, mkDatafile,
          hroll, hro, hio]
  · left
    by_cases hro : b.curr.readonly = true
    · simp [Bitcask.put, DataFile.Write, hroll, hro]
    · by_cases hio : b.io.headD false = true
      all_goals simp only [List.headD_eq_head?_getD] at hio
      · simp [Bitcask.put, DataFile.Write, hroll, hro, hio]
      · simp [Bitcask.put, DataFile.Write, hroll, hro, hio]

/-! ## Claim C5 — sync-on-write configuration

`config.Config` stores a `Sync` field, but no engine code reads it:
`Bitcask.Put`/`Bitcask.put` never call `Sync` after an append.  The only
fsync on the write path is the rollover close of the PREVIOUS active
segment. -/

/-- C5 counterexample: with `sync = true`, a successful put performs no
fsync at all (its effect list is empty). -/
theorem c5_sync_ignored :
    cfgWS.sync = true ∧
    (Bitcask.Put crcZ (openFresh cfgWS []) [97] [65]).2.1 = .ok () ∧
    (Bitcask.Put crcZ (openFresh cfgWS []) [97] [65]).2.2 = [] :=
  ⟨rfl, rfl, rfl⟩

/-- C5 amended: regardless of the `sync` flag, `Put` never fsyncs the
segment the record was appended to (the resulting active segment); the
only possible fsync is of the old segment closed by rollover. -/
theorem c5_put_never_syncs_active (crc : Bytes → Nat) (b : Bitcask)
    (k v : Bytes) :
    decide (Eff.fsync ((Bitcask.Put crc b k v).1.curr.id) ∈
      (Bitcask.Put crc b k v).2.2) = false := by
  rw [decide_eq_false_iff_not]
  have hcases := put_effs_cases crc b k v
  unfold Bitcask.Put
  by_cases h1 : k.length % 2 ^ 32 > b.cfg.maxKeySize
  · rw [if_pos h1]
    simp
  · rw [if_neg h1]
    by_cases h2 : v.length > b.cfg.maxValueSize
    · rw [if_pos h2]
      simp
    · rw [if_neg h2]
      rcases hp : b.put crc k v with ⟨b', r, effs⟩
      rw [hp] at hcases
      simp only at hcases
      cases r with
      | error err =>
        rcases hcases with h | ⟨he, hid⟩
        · simp [h]
        · simp only [he, hid]
          simp
      | ok pr =>
        rcases pr with ⟨offset, n⟩
        rcases hcases with h | ⟨he, hid⟩
        · simp [h]
        · simp only [he, hid]
          simp

/-! ## Claim C6 — rollover -/

/-- C6: rollover happens if and only if the active segment's size before
encoding strictly exceeds `max_datafile_size`.  When it does, the active
writer is fsynced and closed, the same id is reopened frozen into
`frozen_segments`, the new active gets id + 1, and the record is
appended there; otherwise the segment set is unchanged and the record is
appended to the same active segment. -/
theorem c6_rollover_iff (crc : Bytes → Nat) (b : Bitcask) (k v : Bytes)
    (hro : b.curr.readonly = false)
    (hio : b.io.headD false = false) :
    if (b.curr.Size : Int) > b.cfg.maxDatafileSize then
      (b.put crc k v).1.curr.id = b.curr.id + 1 ∧
      mapLookup (b.put crc k v).1.datafiles b.curr.id =
        some (mkDatafile b.curr.id true b.curr.content
          b.cfg.maxKeySize b.cfg.maxValueSize) ∧
      (b.put crc k v).1.curr.content = encode (NewEntry crc k v) ∧
      (b.put crc k v).2.2 = [Eff.fsync b.curr.id]
    else
      (b.put crc k v).1.curr.id = b.curr.id ∧
      (b.put crc k v).1.datafiles = b.datafiles ∧
      (b.put crc k v).1.curr.content =
        b.curr.content ++ encode (NewEntry crc k v) ∧
      (b.put crc k v).2.2 = [] := by
  by_cases hroll : (b.curr.Size : Int) > b.cfg.maxDatafileSize
  · rw [if_pos hroll, put_rollover crc b k v hroll hro hio]
    exact ⟨rfl, mapLookup_mapInsert _ _ _, rfl, rfl⟩
  · rw [if_neg hroll, put_no_rollover crc b k v hroll hro hio]
    exact ⟨rfl, rfl, rfl, rfl⟩

/-- C6 witness: a fresh engine under `max_datafile_size = 10` whose
first record (18 bytes) exceeded the threshold; the second put rolls
over to a new segment with id 1. -/
theorem c6_rollover_iff_witness :
    (((Bitcask.Put crcZ (openFresh cfgR []) [97] [65]).1.curr.Size : Int) >
        (Bitcask.Put crcZ (openFresh cfgR []) [97] [65]).1.cfg.maxDatafileSize) ∧
    ((Bitcask.Put crcZ (openFresh cfgR []) [97] [65]).1.put crcZ
        [98] [66]).1.curr.id =
      (Bitcask.Put crcZ (openFresh cfgR []) [97] [65]).1.curr.id + 1 := by
  have h := c6_rollover_iff crcZ
    (Bitcask.Put crcZ (openFresh cfgR []) [97] [65]).1 [98] [66] rfl rfl
  rw [if_pos (by decide)] at h
  exact ⟨by decide, h.1⟩

/-! ## Claim C7 — round-trip -/

/-- A positioned read of a record just appended at `offset = |C|`
returns that record (with its checksum field reduced to 32 bits). -/
theorem ReadAt_append (d : DataFile) (e : Entry) (C : Bytes)
    (hc : d.content = C ++ encode e)
    (hk0 : e.key.length ≠ 0) (hk : e.key.length ≤ d.maxKeySize)
    (hk32 : e.key.length < 2 ^ 32)
    (hv : e.value.length ≤ d.maxValueSize)
    (hv64 : e.value.length < 2 ^ 64) :
    d.ReadAt C.length (encode e).length =
      .ok { checksum := e.checksum % 2 ^ 32, key := e.key, offset := 0,
            value := e.value } := by
  unfold DataFile.ReadAt
  rw [hc]
  rw [if_neg (by simp [List.length_append])]
  have hslice : ((C ++ encode e).drop C.length).take (encode e).length =
      encode e := by
    rw [List.drop_left, List.take_length]
  rw [hslice, DecodeEntry_encode e _ _ hk0 hk hk32 hv hv64]

/-- `Get` through the active segment: when the directory maps `k` to an
item whose file id is the active id, the value of the record read at the
item's position comes back after a successful checksum comparison. -/
theorem Get_via_curr (crc : Bytes → Nat) (b : Bitcask) (k : Bytes)
    (item : Item) (e : Entry)
    (hs : Tree.search b.t k = some item)
    (hid : item.fileID = b.curr.id)
    (hread : b.curr.ReadAt item.offset item.size = .ok e)
    (hchk : crc e.value = e.checksum) :
    b.Get crc k = .ok e.value := by
  unfold Bitcask.Get
  rw [hs]
  simp only [if_pos hid]
  rw [hread]
  show (if crc e.value ≠ e.checksum then Except.error Err.checksumFailed
    else Except.ok e.value) = Except.ok e.value
  rw [if_neg (fun h => h hchk)]

/-- C7: for every key and value with sizes strictly positive and within
the configured bounds, on any well-formed engine state (active segment
writable, its logical offset equal to its length, its codec limits those
of the configuration, next write not failing), `put(k,v)` succeeds and
an immediate `get(k)` returns `v`. -/
theorem c7_put_get_roundtrip (crc : Bytes → Nat) (b : Bitcask)
    (k v : Bytes)
    (hcrc : ∀ x, crc x < 2 ^ 32)
    (hk0 : 0 < k.length) (hk : k.length ≤ b.cfg.maxKeySize)
    (hk32 : b.cfg.maxKeySize < 2 ^ 32)
    (hv : v.length ≤ b.cfg.maxValueSize)
    (hv64 : b.cfg.maxValueSize < 2 ^ 64)
    (hro : b.curr.readonly = false)
    (hio : b.io.headD false = false)
    (hwf : b.curr.offset = b.curr.content.length)
    (hmk : b.curr.maxKeySize = b.cfg.maxKeySize)
    (hmv : b.curr.maxValueSize = b.cfg.maxValueSize) :
    (Bitcask.Put crc b k v).2.1 = .ok () ∧
    Bitcask.Get crc (Bitcask.Put crc b k v).1 k = .ok v := by
  have hklt : k.length < 2 ^ 32 := lt_of_le_of_lt hk hk32
  have hvlt : v.length < 2 ^ 64 := lt_of_le_of_lt hv hv64
  have hkmod : k.length % 2 ^ 32 = k.length := Nat.mod_eq_of_lt hklt
  have hadm1 : ¬ (k.length % 2 ^ 32 > b.cfg.maxKeySize) := by
    rw [hkmod]
    omega
  have hadm2 : ¬ (v.length > b.cfg.maxValueSize) := by omega
  have hchk : crc v = (NewEntry crc k v).checksum % 2 ^ 32 :=
    (Nat.mod_eq_of_lt (hcrc v)).symm
  unfold Bitcask.Put
  rw [if_neg hadm1, if_neg hadm2]
  have hk0' : k.length ≠ 0 := by omega
  by_cases hroll : (b.curr.Size : Int) > b.cfg.maxDatafileSize
  · rw [put_rollover crc b k v hroll hro hio]
    refine ⟨rfl, ?_⟩
    have hread := ReadAt_append
      { id := b.curr.id + 1, readonly := false
        content := encode (NewEntry crc k v)
        offset := (encode (NewEntry crc k v)).length
        readPos := 0, maxKeySize := b.cfg.maxKeySize
        maxValueSize := b.cfg.maxValueSize }
      (NewEntry crc k v) [] rfl hk0' hk hklt hv hvlt
    exact Get_via_curr crc _ k _
      { checksum := (NewEntry crc k v).checksum % 2 ^ 32, key := k,
        offset := 0, value := v }
      (Tree.search_insert _ k _) rfl hread hchk
  · rw [put_no_rollover crc b k v hroll hro hio]
    refine ⟨rfl, ?_⟩
    have hread := ReadAt_append
      { b.curr with
        content := b.curr.content ++ encode (NewEntry crc k v)
        offset := b.curr.offset + (encode (NewEntry crc k v)).length }
      (NewEntry crc k v) b.curr.content rfl
      hk0' (hmk ▸ hk) hklt (hmv ▸ hv) hvlt
    rw [← hwf] at hread
    exact Get_via_curr crc _ k _
      { checksum := (NewEntry crc k v).checksum % 2 ^ 32, key := k,
        offset := 0, value := v }
      (Tree.search_insert _ k _) rfl hread hchk

/-- C7 witness: `put("a","A"); get("a") = "A"` on a fresh engine. -/
theorem c7_put_get_roundtrip_witness :
    (Bitcask.Put crcZ (openFresh cfgW []) [97] [65]).2.1 = .ok () ∧
    Bitcask.Get crcZ (Bitcask.Put crcZ (openFresh cfgW []) [97] [65]).1
      [97] = .ok [65] :=
  c7_put_get_roundtrip crcZ (openFresh cfgW []) [97] [65]
    (fun _ => (by decide : (0 : Nat) < 2 ^ 32)) (by decide) (by decide)
    (by decide) (by decide) (by decide) rfl rfl rfl rfl rfl

/-! ## Claim C9 — delete performs no admission check -/

/-- C9: `Delete` runs no key admission check.  For EVERY key — the empty
key and oversized keys included — it goes straight to the write path;
when the append succeeds it returns success, the active segment's
content ends with the encoded tombstone (empty value) for that key, and
the key is removed from the directory. -/
theorem c9_delete_no_admission (crc : Bytes → Nat) (b : Bitcask)
    (key : Bytes)
    (hro : b.curr.readonly = false)
    (hio : b.io.headD false = false) :
    (Bitcask.Delete crc b key).2.1 = .ok () ∧
    (Bitcask.Delete crc b key).1.curr.content =
      (if (b.curr.Size : Int) > b.cfg.maxDatafileSize then []
        else b.curr.content) ++ encode (NewEntry crc key []) ∧
    Tree.search (Bitcask.Delete crc b key).1.t key = none := by
  unfold Bitcask.Delete
  by_cases hroll : (b.curr.Size : Int) > b.cfg.maxDatafileSize
  · rw [put_rollover crc b key [] hroll hro hio, if_pos hroll]
    exact ⟨rfl, rfl, Tree.search_del _ key⟩
  · rw [put_no_rollover crc b key [] hroll hro hio, if_neg hroll]
    exact ⟨rfl, rfl, Tree.search_del _ key⟩

/-- C9 witness: deleting a 65-byte key under `max_key_size = 64` (which
`Put` would reject) succeeds and appends its tombstone. -/
theorem c9_delete_no_admission_witness :
    (Bitcask.Delete crcZ (openFresh cfgW []) (List.replicate 65 0)).2.1 =
      .ok () ∧
    (Bitcask.Delete crcZ (openFresh cfgW [])
        (List.replicate 65 0)).1.curr.content =
      (if (((openFresh cfgW []).curr.Size : Int) >
          (openFresh cfgW []).cfg.maxDatafileSize) then []
        else (openFresh cfgW []).curr.content) ++
        encode (NewEntry crcZ (List.replicate 65 0) []) ∧
    Tree.search (Bitcask.Delete crcZ (openFresh cfgW [])
        (List.replicate 65 0)).1.t (List.replicate 65 0) = none :=
  c9_delete_no_admission crcZ (openFresh cfgW []) (List.replicate 65 0)
    rfl rfl

/-! ## Claim C10 — ReadAt discards the decode result -/

/-- C10: `datafile.ReadAt` ignores the value returned by
`codec.DecodeEntry`.  Whenever exactly `size` bytes (at least the
12-byte prefix) can be read at `offset` but they do not form a valid
record — decoded `key_len == 0`, `key_len > maxKeySize`, or
`value_len > maxValueSize` — `ReadAt` returns the zero-valued entry with
a nil error instead of an invalid-record error. -/
theorem c10_readAt_discards_invalid (d : DataFile) (offset size : Nat)
    (hav : offset + size ≤ d.content.length)
    (h12 : 12 ≤ size)
    (hinv : fromBE (((d.content.drop offset).take size).take 4) = 0 ∨
      fromBE (((d.content.drop offset).take size).take 4) > d.maxKeySize ∨
      fromBE ((((d.content.drop offset).take size).drop 4).take 8) >
        d.maxValueSize) :
    d.ReadAt offset size = .ok zeroEntry := by
  have hlen : ((d.content.drop offset).take size).length = size := by
    rw [List.length_take, List.length_drop]
    omega
  have hget : getKeyValueSizes ((d.content.drop offset).take size)
      d.maxKeySize d.maxValueSize = .error .invalidKeyOrValueSize := by
    unfold getKeyValueSizes
    rw [if_neg (by omega)]
    rw [if_pos (by tauto)]
  unfold DataFile.ReadAt
  rw [if_neg (by omega)]
  unfold DecodeEntry
  rw [hget]

/-- C10 witness: twelve zero bytes decode to `key_len == 0`, yet
`ReadAt` answers with the zero entry and no error. -/
theorem c10_readAt_discards_invalid_witness :
    (mkDatafile 0 false (List.replicate 12 (0 : Byte)) 64 64).ReadAt 0 12 =
      .ok zeroEntry :=
  c10_readAt_discards_invalid
    (mkDatafile 0 false (List.replicate 12 (0 : Byte)) 64 64) 0 12
    (by decide) (by decide) (by left; decide)

/-! ## Claim C2 — active id versus frozen ids -/

/-- The amended engine-state id invariant: every frozen segment's id is
at most (NOT strictly below) the active segment's id. -/
def goodIds (b : Bitcask) : Prop :=
  ∀ q ∈ b.datafiles.map (·.1), q ≤ b.curr.id

/-- In a sorted list every element is bounded by `getLastD`. -/
theorem sorted_mem_le_getLastD :
    ∀ (l : List Nat) (d : Nat), List.Sorted (· ≤ ·) l →
      ∀ x ∈ l, x ≤ l.getLastD d := by
  intro l
  induction l with
  | nil =>
    intro d _ x hx
    cases hx
  | cons b t ih =>
    intro d hs x hx
    rcases List.sorted_cons.mp hs with ⟨hb, ht⟩
    rw [List.getLastD_cons]
    rcases List.mem_cons.mp hx with rfl | hx
    · cases t with
      | nil => exact Nat.le_refl x
      | cons c t' =>
        rcases List.mem_cons.mp (List.getLastD_mem_cons (c :: t') x) with
          he | he
        · omega
        · exact hb _ he
    · exact ih b ht x hx

/-- Ids surviving `openFrozen` come from the id list or the start map. -/
theorem openFrozen_ids (fs : Files) (mks mvs : Nat) :
    ∀ (ids : List Nat) (m0 m : List (Nat × DataFile)),
      openFrozen fs mks mvs ids m0 = .ok m →
      ∀ q ∈ m.map (·.1), q ∈ ids ∨ q ∈ m0.map (·.1) := by
  intro ids
  induction ids with
  | nil =>
    intro m0 m h q hq
    right
    unfold openFrozen at h
    cases h
    exact hq
  | cons id rest ih =>
    intro m0 m h q hq
    unfold openFrozen at h
    cases hf : filesLookup fs id with
    | none =>
      rw [hf] at h
      cases h
    | some c =>
      rw [hf] at h
      rcases ih _ m h q hq with h1 | h1
      · exact Or.inl (List.mem_cons_of_mem _ h1)
      · rcases mem_ids_mapInsert h1 with h2 | h2
        · exact Or.inl (h2 ▸ List.mem_cons_self _ _)
        · exact Or.inr h2

/-- The write path either leaves the segment set and active id alone, or
freezes the old active id and steps the active id to its successor. -/
theorem put_ids_cases (crc : Bytes → Nat) (b : Bitcask) (k v : Bytes) :
    ((b.put crc k v).1.datafiles = b.datafiles ∧
      (b.put crc k v).1.curr.id = b.curr.id) ∨
    ((b.put crc k v).1.datafiles =
        mapInsert b.datafiles b.curr.id
          (mkDatafile b.curr.id true b.curr.content
            b.cfg.maxKeySize b.cfg.maxValueSize) ∧
      (b.put crc k v).1.curr.id = b.curr.id + 1) := by
  by_cases hroll : ((b.curr.Size : Int) > b.cfg.maxDatafileSize)
  · right
    by_cases hro : b.curr.readonly = true
    · by_cases hio : b.io.headD false = true
      all_goals simp only [List.headD_eq_head?_getD] at hio
      · constructor <;>
          simp [Bitcask.put, DataFile.Write, DataFile.doClose, mkDatafile,
            hroll, hro, hio]
      · constructor <;>
          simp [Bitcask.put, DataFile.Write, DataFile.doClose, mkDatafile,
            hroll, hro, hio]
    · by_cases hio : b.io.headD false = true
      all_goals simp only [List.headD_eq_head?_getD] at hio
      · constructor <;>
          simp [Bitcask.put, DataFile.Write, DataFile.doClose, mkDatafile,
            hroll, hro, hio]
      · constructor <;>
          simp [Bitcask.put, DataFile.Write, DataFile.doClose, mkDatafile,
            hroll, hro, hio]
  · left
    by_cases hro : b.curr.readonly = true
    · constructor <;> simp [Bitcask.put, DataFile.Write, hroll, hro]
    · by_cases hio : b.io.headD false = true
      all_goals simp only [List.headD_eq_head?_getD] at hio
      · constructor <;> simp [Bitcask.put, DataFile.Write, hroll, hro, hio]
      · constructor <;> simp [Bitcask.put, DataFile.Write, hroll, hro, hio]

theorem goodIds_put (crc : Bytes → Nat) (b : Bitcask) (k v : Bytes)
    (h : goodIds b) : goodIds (b.put crc k v).1 := by
  rcases put_ids_cases crc b k v with ⟨hd, hc⟩ | ⟨hd, hc⟩
  · intro q hq
    rw [hd] at hq
    rw [hc]
    exact h q hq
  · intro q hq
    rw [hd] at hq
    rw [hc]
    rcases mem_ids_mapInsert hq with h2 | h2
    · omega
    · have := h q h2
      omega

theorem goodIds_Put (crc : Bytes → Nat) (b : Bitcask) (k v : Bytes)
    (h : goodIds b) : goodIds (Bitcask.Put crc b k v).1 := by
  unfold Bitcask.Put
  by_cases h1 : k.length % 2 ^ 32 > b.cfg.maxKeySize
  · rw [if_pos h1]
    exact h
  · rw [if_neg h1]
    by_cases h2 : v.length > b.cfg.maxValueSize
    · rw [if_pos h2]
      exact h
    · rw [if_neg h2]
      have hput := goodIds_put crc b k v h
      rcases hp : b.put crc k v with ⟨b', r, effs⟩
      rw [hp] at hput
      cases r with
      | error err => exact hput
      | ok pr =>
        rcases pr with ⟨offset, n⟩
        exact hput

theorem goodIds_Delete (crc : Bytes → Nat) (b : Bitcask) (key : Bytes)
    (h : goodIds b) : goodIds (Bitcask.Delete crc b key).1 := by
  unfold Bitcask.Delete
  have hput := goodIds_put crc b key [] h
  rcases hp : b.put crc key [] with ⟨b', r, effs⟩
  rw [hp] at hput
  cases r with
  | error err => exact hput
  | ok pr => exact hput

theorem goodIds_deleteAllLoop (crc : Bytes → Nat) :
    ∀ (keys : List Bytes) (b : Bitcask), goodIds b →
      goodIds (deleteAllLoop crc b keys).1 := by
  intro keys
  induction keys with
  | nil =>
    intro b h
    exact h
  | cons k ks ih =>
    intro b h
    have hput := goodIds_put crc b k [] h
    unfold deleteAllLoop
    rcases hp : b.put crc k [] with ⟨b', r, effs⟩
    rw [hp] at hput
    cases r with
    | error err => exact hput
    | ok pr =>
      have := ih b' hput
      rcases hq : deleteAllLoop crc b' ks with ⟨b'', r', effs'⟩
      rw [hq] at this
      show goodIds ((match deleteAllLoop crc b' ks with
        | (b'', r, effs') => (b'', r, effs ++ effs')).1)
      rw [hq]
      exact this

theorem goodIds_DeleteAll (crc : Bytes → Nat) (b : Bitcask)
    (h : goodIds b) : goodIds (Bitcask.DeleteAll crc b).1 := by
  unfold Bitcask.DeleteAll
  have := goodIds_deleteAllLoop crc (b.t.map (·.1)) b h
  rcases hq : deleteAllLoop crc b (b.t.map (·.1)) with ⟨b', r, effs⟩
  rw [hq] at this
  rw [hq]
  exact this

/-- Everything `loadDatafiles` reports is bounded by its `lastID`. -/
theorem loadDatafiles_ids_le (fs : Files) (mks mvs : Nat)
    (m : List (Nat × DataFile)) (lastID : Nat)
    (h : loadDatafiles fs mks mvs = .ok (m, lastID)) :
    ∀ q ∈ m.map (·.1), q ≤ lastID := by
  intro q hq
  unfold loadDatafiles at h
  cases hof : openFrozen fs mks mvs (ParseIds (sortedIds fs)) [] with
  | error err =>
    rw [hof] at h
    cases h
  | ok m' =>
    rw [hof] at h
    injection h with h'
    injection h' with hm hlast
    subst hm
    have hmem := openFrozen_ids fs mks mvs
      (ParseIds (sortedIds fs)) [] m' hof q hq
    rcases hmem with hmem | hmem
    · have hsorted : List.Sorted (· ≤ ·) (ParseIds (sortedIds fs)) :=
        List.sorted_insertionSort _ _
      have hle := sorted_mem_le_getLastD _ 0 hsorted q hmem
      have hlen : (ParseIds (sortedIds fs)).length > 0 :=
        List.length_pos.mpr (List.ne_nil_of_mem hmem)
      rw [← hlast, if_pos hlen]
      exact hle
    · cases hmem

theorem goodIds_reopen (fs : Files) (snap : Option Tree) (cfg : Config)
    (ioOracle : List Bool) (b : Bitcask)
    (h : reopen fs snap cfg ioOracle = .ok b) : goodIds b := by
  unfold reopen at h
  split at h
  · cases h
  · rename_i datafiles lastID hld
    split at h
    · cases h
    · rename_i t' hli
      cases h
      intro q hq
      exact loadDatafiles_ids_le fs cfg.maxKeySize cfg.maxValueSize
        datafiles lastID hld q hq

/-- C2 counterexample: opening a directory holding one (empty) segment
file with id 0 yields an engine whose active id 0 EQUALS the frozen
segment's id — strict inequality fails right after a successful open,
because `reopen` does not remove the last id from the frozen map. -/
theorem c2_strict_fails_after_open :
    (reopen [(0, [])] none cfgW []).map
      (fun b => decide (∀ q ∈ b.datafiles.map (·.1), b.curr.id > q)) =
      .ok false := by
  rfl

/-- C2 amended: the invariant that holds is `≥`, not `>`: after a fresh
open, after every successful `reopen`, and through every `Put`, `Delete`
and `DeleteAll`, every frozen id is at most the active id (equality
occurs right after reopening a non-empty directory). -/
theorem c2_active_ge_frozen :
    (∀ cfg ioOracle, goodIds (openFresh cfg ioOracle)) ∧
    (∀ fs snap cfg ioOracle b, reopen fs snap cfg ioOracle = .ok b →
      goodIds b) ∧
    (∀ crc b k v, goodIds b → goodIds (Bitcask.Put crc b k v).1) ∧
    (∀ crc b key, goodIds b → goodIds (Bitcask.Delete crc b key).1) ∧
    (∀ crc b, goodIds b → goodIds (Bitcask.DeleteAll crc b).1) :=
  ⟨fun _ _ q hq => absurd hq (List.not_mem_nil q),
    fun fs snap cfg ioOracle b h => goodIds_reopen fs snap cfg ioOracle b h,
    goodIds_Put, goodIds_Delete, goodIds_DeleteAll⟩

/-- C2 witness: the invariant holds concretely across an open and a
rollover-inducing pair of puts. -/
theorem c2_active_ge_frozen_witness :
    goodIds (Bitcask.Put crcZ
      (Bitcask.Put crcZ (openFresh cfgR []) [97] [65]).1 [98] [66]).1 :=
  c2_active_ge_frozen.2.2.1 crcZ _ [98] [66]
    (c2_active_ge_frozen.2.2.1 crcZ (openFresh cfgR []) [97] [65]
      (c2_active_ge_frozen.1 cfgR []))

/-! ## Claim C8 — `ParseIds` zero padding -/

/-- A sorted list of naturals with at least `n` zeros starts with `n`
zeros. -/
theorem sorted_take_replicate_zero :
    ∀ (n : Nat) (l : List Nat), List.Sorted (· ≤ ·) l →
      n ≤ l.count 0 → l.take n = List.replicate n 0 := by
  intro n
  induction n with
  | zero =>
    intro l _ _
    rfl
  | succ n ih =>
    intro l hs hc
    cases l with
    | nil =>
      simp at hc
    | cons a t =>
      have ha0 : a = 0 := by
        have hmem : (0 : Nat) ∈ a :: t := List.count_pos_iff.mp (by omega)
        rcases List.mem_cons.mp hmem with h | h
        · exact h.symm
        · have := List.rel_of_sorted_cons hs 0 h
          omega
      subst ha0
      have hc' : n ≤ t.count 0 := by
        rw [List.count_cons_self] at hc
        omega
      rw [List.take_succ_cons, List.replicate_succ,
        ih t (List.sorted_cons.mp hs).2 hc']

theorem mem_ids_mapInsert_self (m : List (Nat × DataFile)) (k : Nat)
    (v : DataFile) : k ∈ (mapInsert m k v).map (·.1) := by
  unfold mapInsert
  split
  · rename_i hf
    rcases Option.isSome_iff_exists.mp hf with ⟨p₀, hp₀⟩
    have hk : p₀.1 = k := by simpa using List.find?_some hp₀
    have hp₀mem : p₀ ∈ m := List.mem_of_find?_eq_some hp₀
    refine List.mem_map.mpr ⟨(k, v), List.mem_map.mpr ⟨p₀, hp₀mem, ?_⟩, rfl⟩
    simp [hk]
  · simp

theorem mem_ids_mapInsert_of_mem {m : List (Nat × DataFile)} {k q : Nat}
    {v : DataFile} (h : q ∈ m.map (·.1)) :
    q ∈ (mapInsert m k v).map (·.1) := by
  unfold mapInsert
  rcases List.mem_map.mp h with ⟨p, hp, hpq⟩
  split
  · refine List.mem_map.mpr ⟨if p.1 = k then (k, v) else p,
      List.mem_map.mpr ⟨p, hp, rfl⟩, ?_⟩
    by_cases hpk : p.1 = k
    · simp [hpk]
      omega
    · simp [hpk]
      exact hpq
  · exact List.mem_map.mpr ⟨p, List.mem_append_left _ hp, hpq⟩

/-- Ids fed to `openFrozen` (and ids already present) survive into the
resulting map. -/
theorem openFrozen_mem (fs : Files) (mks mvs : Nat) :
    ∀ (ids : List Nat) (m0 m : List (Nat × DataFile)),
      openFrozen fs mks mvs ids m0 = .ok m →
      ∀ q, (q ∈ ids ∨ q ∈ m0.map (·.1)) → q ∈ m.map (·.1) := by
  intro ids
  induction ids with
  | nil =>
    intro m0 m h q hq
    unfold openFrozen at h
    cases h
    rcases hq with hq | hq
    · cases hq
    · exact hq
  | cons id rest ih =>
    intro m0 m h q hq
    unfold openFrozen at h
    cases hf : filesLookup fs id with
    | none =>
      rw [hf] at h
      cases h
    | some c =>
      rw [hf] at h
      rcases hq with hq | hq
      · rcases List.mem_cons.mp hq with rfl | hq
        · exact ih _ m h q (Or.inr (mem_ids_mapInsert_self m0 q _))
        · exact ih _ m h q (Or.inl hq)
      · exact ih _ m h q (Or.inr (mem_ids_mapInsert_of_mem hq))

/-- A nonempty filename list makes `ParseIds` start with a zero. -/
theorem parseIds_head_zero (fns : List Nat) (h : fns ≠ []) :
    ∃ rest, ParseIds fns = 0 :: rest := by
  have hlen : (ParseIds fns).length = 2 * fns.length :=
    (List.perm_insertionSort _ _).length_eq.trans (by
      rw [List.length_append, List.length_replicate]
      omega)
  have hcount : fns.length ≤ (ParseIds fns).count 0 := by
    have hperm := (List.perm_insertionSort (· ≤ ·)
      (List.replicate fns.length 0 ++ fns)).count_eq 0
    unfold ParseIds
    rw [hperm, List.count_append, List.count_replicate_self]
    omega
  have htake : (ParseIds fns).take fns.length =
      List.replicate fns.length 0 :=
    sorted_take_replicate_zero fns.length (ParseIds fns)
      (List.sorted_insertionSort _ _) hcount
  have hpos : 0 < fns.length := List.length_pos.mpr h
  cases hP : ParseIds fns with
  | nil =>
    rw [hP, List.length_nil] at hlen
    omega
  | cons a rest =>
    refine ⟨rest, ?_⟩
    rw [hP] at htake
    cases hfn : fns.length with
    | zero => omega
    | succ nn =>
      rw [hfn, List.take_succ_cons, List.replicate_succ] at htake
      injection htake with h1 _
      rw [h1]

/-- C8: `ParseIds` pre-allocates `len(fns)` zero entries and then
appends the parsed ids, so it returns a sorted slice of length `2n`
whose first `n` elements are zero; consequently, whenever at least one
segment file exists, `loadDatafiles` attempts to open id 0 as a frozen
segment — failing outright when no segment file has id 0, and carrying
an id-0 entry in its result otherwise. -/
theorem c8_parseIds_padding :
    (∀ fns : List Nat,
      (ParseIds fns).length = 2 * fns.length ∧
      List.Sorted (· ≤ ·) (ParseIds fns) ∧
      (ParseIds fns).take fns.length = List.replicate fns.length 0) ∧
    (∀ (fs : Files) (mks mvs : Nat), fs ≠ [] →
      (filesLookup fs 0 = none →
        loadDatafiles fs mks mvs = .error .fileNotFound) ∧
      (∀ m lastID, loadDatafiles fs mks mvs = .ok (m, lastID) →
        0 ∈ m.map (·.1))) := by
  constructor
  · intro fns
    refine ⟨?_, List.sorted_insertionSort _ _, ?_⟩
    · exact (List.perm_insertionSort _ _).length_eq.trans (by
        rw [List.length_append, List.length_replicate]
        omega)
    · refine sorted_take_replicate_zero fns.length (ParseIds fns)
        (List.sorted_insertionSort _ _) ?_
      have hperm := (List.perm_insertionSort (· ≤ ·)
        (List.replicate fns.length 0 ++ fns)).count_eq 0
      unfold ParseIds
      rw [hperm, List.count_append, List.count_replicate_self]
      omega
  · intro fs mks mvs hne
    have hsne : sortedIds fs ≠ [] := by
      unfold sortedIds
      intro hc
      have := (List.perm_insertionSort (· ≤ ·) (fs.map (·.1))).length_eq
      rw [hc] at this
      simp at this
      exact hne (List.length_eq_zero.mp this.symm)
    obtain ⟨rest, hP⟩ := parseIds_head_zero (sortedIds fs) hsne
    constructor
    · intro hlook
      unfold loadDatafiles
      rw [hP]
      unfold openFrozen
      rw [hlook]
    · intro m lastID h
      unfold loadDatafiles at h
      cases hof : openFrozen fs mks mvs (ParseIds (sortedIds fs)) [] with
      | error err =>
        rw [hof] at h
        cases h
      | ok m' =>
        rw [hof] at h
        injection h with h'
        injection h' with hm _
        subst hm
        refine openFrozen_mem fs mks mvs _ [] m' hof 0 (Or.inl ?_)
        rw [hP]
        exact List.mem_cons_self 0 rest

/-- C8 witness: one segment file named `000000003.data` — `ParseIds`
yields `[0, 3]` facts and recovery fails looking for segment 0. -/
theorem c8_parseIds_padding_witness :
    (ParseIds [3]).length = 2 ∧
    (ParseIds [3]).take 1 = [0] ∧
    loadDatafiles [(3, [])] 64 64 = .error .fileNotFound := by
  obtain ⟨hA, hB⟩ := c8_parseIds_padding
  have h1 := hA [3]
  have h2 := (hB [(3, [])] 64 64 (by decide)).1 rfl
  exact ⟨h1.1, h1.2.2, h2⟩

end Bitcaskv
